import Mathlib

/-!
# CRC-8 engine (cjwagenius/crc8, `crc8.h`)

Shallow embedding of the four engine functions `crc8_upd`, `crc8`, `crc8_fin`
and `crc8_init` together with the twenty predefined recipes.  The C type
`uint8_t` is represented by `Nat`; every place where the C code truncates to
eight bits carries an explicit `% 256`.  A function that mutates the recipe it
is handed returns the new recipe; a function that also returns a value returns
the pair of the new recipe and that value.
-/

namespace Crc8

/-- The macro `CRC8_REFIO_TRUE`. -/
def CRC8_REFIO_TRUE : Nat := 0x01

/-- The macro `CRC8_REFIO_FALSE`. -/
def CRC8_REFIO_FALSE : Nat := 0x80

/-- The struct `crc8` (`crc8_t`): four `uint8_t` fields. -/
structure crc8_t where
  /-- Field `crc`: init and result. -/
  crc : Nat
  /-- Field `poly`: the polynomial. -/
  poly : Nat
  /-- Field `refio`: refin and refout. -/
  refio : Nat
  /-- Field `xor`: the xor-out mask. -/
  xor : Nat
  deriving DecidableEq, Repr

/-- Range invariant of the C type: every field is a `uint8_t`. -/
def crc8_t.inRange (r : crc8_t) : Prop :=
  r.crc < 256 ∧ r.poly < 256 ∧ r.refio < 256 ∧ r.xor < 256

instance (r : crc8_t) : Decidable r.inRange := by
  unfold crc8_t.inRange; infer_instance

/-! ## Predefined recipes (`crc8.h`, lines 60-79) -/

def CRC8_AUTOSAR : crc8_t := ⟨0xff, 0x2f, CRC8_REFIO_FALSE, 0xff⟩
def CRC8_BLUETOOTH : crc8_t := ⟨0x00, 0xe5, CRC8_REFIO_TRUE, 0x00⟩
def CRC8_CDMA2000 : crc8_t := ⟨0xff, 0x9b, CRC8_REFIO_FALSE, 0x00⟩
def CRC8_DARC : crc8_t := ⟨0x00, 0x9c, CRC8_REFIO_TRUE, 0x00⟩
def CRC8_DVBS2 : crc8_t := ⟨0x00, 0xd5, CRC8_REFIO_FALSE, 0x00⟩
def CRC8_EBU : crc8_t := ⟨0xff, 0xb8, CRC8_REFIO_TRUE, 0x00⟩
def CRC8_GSMA : crc8_t := ⟨0x00, 0x1d, CRC8_REFIO_FALSE, 0x00⟩
def CRC8_GSMB : crc8_t := ⟨0x00, 0x49, CRC8_REFIO_FALSE, 0xff⟩
def CRC8_ICODE : crc8_t := ⟨0xfd, 0x1d, CRC8_REFIO_FALSE, 0x00⟩
def CRC8_ITUI : crc8_t := ⟨0x00, 0x07, CRC8_REFIO_FALSE, 0x55⟩
def CRC8_LTE : crc8_t := ⟨0x00, 0x9b, CRC8_REFIO_FALSE, 0x00⟩
def CRC8_MAXIM : crc8_t := ⟨0x00, 0x8c, CRC8_REFIO_TRUE, 0x00⟩
def CRC8_MIFAREMAD : crc8_t := ⟨0xc7, 0x1d, CRC8_REFIO_FALSE, 0x00⟩
def CRC8_NRSC5 : crc8_t := ⟨0xff, 0x31, CRC8_REFIO_FALSE, 0x00⟩
def CRC8_OPENSAFETY : crc8_t := ⟨0x00, 0x2f, CRC8_REFIO_FALSE, 0x00⟩
def CRC8_ROHC : crc8_t := ⟨0xff, 0xe0, CRC8_REFIO_TRUE, 0x00⟩
def CRC8_SAEJ1859 : crc8_t := ⟨0xff, 0x1d, CRC8_REFIO_FALSE, 0xff⟩
def CRC8_SMBUS : crc8_t := ⟨0x00, 0x07, CRC8_REFIO_FALSE, 0x00⟩
def CRC8_TECH3250 : crc8_t := ⟨0xff, 0xb8, CRC8_REFIO_TRUE, 0x00⟩
def CRC8_WCDMA : crc8_t := ⟨0x00, 0xd9, CRC8_REFIO_TRUE, 0x00⟩

/-! ## `crc8_upd` -/

/-- One pass through the body of the `for` loop of `crc8_upd`:
`p = c & refio; c = (refio & 0x80) ? c << 1 : c >> 1; c ^= p ? poly : 0x00`.
The left shift is computed in `int` and truncated by the store to the
`uint8_t` variable `c`. -/
def crc8_upd_body (r : crc8_t) (c : Nat) : Nat :=
  let p := c &&& r.refio
  let c := if r.refio &&& 0x80 ≠ 0 then (c <<< 1) % 256 else c >>> 1
  c ^^^ (if p ≠ 0 then r.poly else 0x00)

/-- The loop `for (i = 0; i < 8; i ++)` of `crc8_upd`, started at counter `i`
with working byte `c`; `fuel` bounds the number of passes (8 suffice). -/
def crc8_upd_loop (r : crc8_t) : Nat → Nat → Nat → Nat
  | 0, _, c => c
  | fuel + 1, i, c =>
    if i < 8 then crc8_upd_loop r fuel (i + 1) (crc8_upd_body r c) else c

/-- The function `crc8_upd`: updates the recipe with one byte; returns the
recipe after the call and the value returned by the C function. -/
def crc8_upd (r : crc8_t) (byte : Nat) : crc8_t × Nat :=
  let c := r.crc ^^^ byte
  let c := crc8_upd_loop r 8 0 c
  ({ r with crc := c }, c)

/-! ## `crc8` -/

/-- The loop `for (b = data; len; len --)` of `crc8`; the list holds the
`len` bytes found at `data`. -/
def crc8_loop (r : crc8_t) : List Nat → crc8_t
  | [] => r
  | b :: bs => crc8_loop (crc8_upd r b).1 bs

/-- The function `crc8`: processes the bytes of `data`; returns the recipe
after the call and the returned value `crc->crc`. -/
def crc8 (r : crc8_t) (data : List Nat) : crc8_t × Nat :=
  let r := crc8_loop r data
  (r, r.crc)

/-! ## `crc8_fin` -/

/-- The function `crc8_fin`: `crc->crc ^= crc->xor; return crc->crc`. -/
def crc8_fin (r : crc8_t) : crc8_t × Nat :=
  let r := { r with crc := r.crc ^^^ r.xor }
  (r, r.crc)

/-! ## `crc8_init` -/

/-- The loop of `crc8_init`, on the pair `(b, poly)`:
`b <<= 1; b |= poly & 0x01; poly >>= 1`, for `i` below 8. -/
def crc8_init_loop : Nat → Nat → Nat → Nat → Nat × Nat
  | 0, _, b, poly => (b, poly)
  | fuel + 1, i, b, poly =>
    if i < 8 then
      let b := (b <<< 1) % 256
      let b := b ||| (poly &&& 0x01)
      let poly := poly >>> 1
      crc8_init_loop fuel (i + 1) b poly
    else (b, poly)

/-- The function `crc8_init`: bit-reverses the polynomial when bit 0 of
`refio` is set, and otherwise stores `0x80` in `refio`. -/
def crc8_init (r : crc8_t) : crc8_t :=
  if r.refio &&& 0x01 ≠ 0 then
    let b := (crc8_init_loop 8 0 0 r.poly).1
    { r with poly := b }
  else
    { r with refio := 0x80 }

/-- The nine ASCII bytes of "123456789". -/
def check_input : List Nat := [0x31, 0x32, 0x33, 0x34, 0x35, 0x36, 0x37, 0x38, 0x39]

/-- The sequence of calls made for each recipe by `crc_all` (and by `main` for
a custom recipe): `crc8` over the data, then `crc8_fin`; the value is the one
returned by `crc8_fin`. -/
def checksum (r : crc8_t) (data : List Nat) : Nat :=
  (crc8_fin (crc8 r data).1).2

/-- The effect of `crc8_upd` on the recipe alone, as used when the caller
ignores the returned value. -/
def upd_state (r : crc8_t) (byte : Nat) : crc8_t :=
  (crc8_upd r byte).1

/-- The effect of `crc8_fin` on the recipe alone. -/
def fin_state (r : crc8_t) : crc8_t :=
  (crc8_fin r).1

/-- One iteration of the bit loop as the specification words it for a
normalized recipe: test the designated bit (bit 7 when `refio = 0x80`, bit 0
when `refio = 0x01`), shift one position (left, truncated to 8 bits, resp.
right), and XOR with `poly` when the tested bit was set.  No step is specified
for a flag byte that is not normalized. -/
def spec_bit_step (refio poly w : Nat) : Nat :=
  if refio = 0x80 then
    ((w <<< 1) % 256) ^^^ (if w.testBit 7 then poly else 0)
  else if refio = 0x01 then
    (w >>> 1) ^^^ (if w.testBit 0 then poly else 0)
  else
    w

/-- The bit loop of the specification: start from `crc XOR b` and apply
`spec_bit_step` 8 times. -/
def spec_update (r : crc8_t) (b : Nat) : Nat :=
  (spec_bit_step r.refio r.poly)^[8] (r.crc ^^^ b)

/-! ## Reference notions used by the statements

Bit reversal, the message polynomial and polynomial arithmetic over GF(2).  A
polynomial over GF(2) is encoded as a natural number, bit `i` being the
coefficient of `x^i`; addition of polynomials is `^^^`, multiplication by
`x^k` is `<<< k`. -/

/-- The 8-bit reversal of a byte: bit `i` of the result is bit `7 - i` of the
argument, for `i` in 0..7. -/
def rev8 (x : Nat) : Nat :=
  (((x >>> 7) &&& 1) <<< 0) ||| (((x >>> 6) &&& 1) <<< 1) |||
  (((x >>> 5) &&& 1) <<< 2) ||| (((x >>> 4) &&& 1) <<< 3) |||
  (((x >>> 3) &&& 1) <<< 4) ||| (((x >>> 2) &&& 1) <<< 5) |||
  (((x >>> 1) &&& 1) <<< 6) ||| (((x >>> 0) &&& 1) <<< 7)

/-- The message polynomial of a byte sequence: the bytes in order, the most
significant bit of the first byte being the highest coefficient. -/
def msg_poly (S : List Nat) : Nat :=
  S.foldl (fun m b => (m <<< 8) ^^^ b) 0

/-- Sum over the bits `i < k` set in `q` of `g * x^i`. -/
def gf2_mul_upto (q g : Nat) : Nat → Nat
  | 0 => 0
  | k + 1 => gf2_mul_upto q g k ^^^ (if q.testBit k then g <<< k else 0)

/-- Product of the GF(2) polynomials `q` and `g` (carry-less product). -/
def gf2_mul (q g : Nat) : Nat :=
  gf2_mul_upto q g q.size

/-- Long division by `g`, a polynomial of degree `dg`: for `i` from `k - 1`
down to 0, when the coefficient of `x^(i + dg)` is set, subtract `g * x^i`.
On a polynomial of degree below `k + dg` this leaves the remainder. -/
def gf2_rem_loop (g dg : Nat) : Nat → Nat → Nat
  | 0, a => a
  | k + 1, a => gf2_rem_loop g dg k (if a.testBit (k + dg) then a ^^^ (g <<< k) else a)

/-- Reference CRC-8 register, by long division: the remainder of
`c(x) * x^(8n) + M(x) * x^8` modulo `G(x) = x^8 + P(x)`, where `n` is the
number of bytes of `S` and `M` its message polynomial. -/
def crc8_reference (P c : Nat) (S : List Nat) : Nat :=
  gf2_rem_loop (0x100 ^^^ P) 8 (8 * S.length)
    ((c <<< (8 * S.length)) ^^^ (msg_poly S <<< 8))

/-- Bytewise XOR of two byte sequences. -/
def xor_bytes (A B : List Nat) : List Nat :=
  List.zipWith (fun a b => a ^^^ b) A B

/-- The `crc` register left in the recipe by `crc8` over `S`. -/
def crc8_reg (r : crc8_t) (S : List Nat) : Nat :=
  (crc8 r S).1.crc

/-- The recipes of the table `algos` of `crc8.c`, in declaration order (the
display names are left out). -/
def algos : List crc8_t :=
  [CRC8_AUTOSAR, CRC8_BLUETOOTH, CRC8_CDMA2000, CRC8_DARC, CRC8_DVBS2, CRC8_EBU, CRC8_GSMA,
   CRC8_GSMB, CRC8_ICODE, CRC8_ITUI, CRC8_LTE, CRC8_MAXIM, CRC8_MIFAREMAD, CRC8_NRSC5,
   CRC8_OPENSAFETY, CRC8_ROHC, CRC8_SAEJ1859, CRC8_SMBUS, CRC8_TECH3250, CRC8_WCDMA]

/-! ## Known-answer vectors -/

set_option maxRecDepth 100000

/-- C1: for each of the 13 predefined non-reflected recipes, `crc8` over the
nine ASCII bytes "123456789" followed by `crc8_fin` yields the catalogue check
value of the variant. -/
theorem check_values_non_reflected :
    checksum CRC8_AUTOSAR check_input = 0xDF ∧
    checksum CRC8_CDMA2000 check_input = 0xDA ∧
    checksum CRC8_DVBS2 check_input = 0xBC ∧
    checksum CRC8_GSMA check_input = 0x37 ∧
    checksum CRC8_GSMB check_input = 0x94 ∧
    checksum CRC8_ICODE check_input = 0x7E ∧
    checksum CRC8_ITUI check_input = 0xA1 ∧
    checksum CRC8_LTE check_input = 0xEA ∧
    checksum CRC8_MIFAREMAD check_input = 0x99 ∧
    checksum CRC8_NRSC5 check_input = 0xF7 ∧
    checksum CRC8_OPENSAFETY check_input = 0x3E ∧
    checksum CRC8_SAEJ1859 check_input = 0x4B ∧
    checksum CRC8_SMBUS check_input = 0xF4 := by
  refine ⟨?_, ?_, ?_, ?_, ?_, ?_, ?_, ?_, ?_, ?_, ?_, ?_, ?_⟩ <;> decide

/-- C2: for each of the 7 predefined reflected recipes, used as predefined
(no call of `crc8_init`), `crc8` over the nine ASCII bytes "123456789"
followed by `crc8_fin` yields the catalogue check value of the variant. -/
theorem check_values_reflected :
    checksum CRC8_BLUETOOTH check_input = 0x26 ∧
    checksum CRC8_DARC check_input = 0x15 ∧
    checksum CRC8_EBU check_input = 0x97 ∧
    checksum CRC8_MAXIM check_input = 0xA1 ∧
    checksum CRC8_ROHC check_input = 0xD0 ∧
    checksum CRC8_TECH3250 check_input = 0x97 ∧
    checksum CRC8_WCDMA check_input = 0x25 := by
  refine ⟨?_, ?_, ?_, ?_, ?_, ?_, ?_⟩ <;> decide

/-! ## Loop fuel

Both counted loops leave through their test `i < 8` after eight passes: any
fuel of at least 8 gives the result obtained with fuel 8. -/

theorem crc8_upd_loop_fuel (r : crc8_t) (k c : Nat) :
    crc8_upd_loop r (k + 8) 0 c = crc8_upd_loop r 8 0 c := by
  cases k <;> simp [crc8_upd_loop]

theorem crc8_init_loop_fuel (k b poly : Nat) :
    crc8_init_loop (k + 8) 0 b poly = crc8_init_loop 8 0 b poly := by
  cases k <;> simp [crc8_init_loop]

/-! ## Frame and composition lemmas -/

theorem crc8_upd_fst (r : crc8_t) (b : Nat) :
    (crc8_upd r b).1 = { r with crc := (crc8_upd r b).2 } := rfl

theorem crc8_loop_append (r : crc8_t) (A B : List Nat) :
    crc8_loop r (A ++ B) = crc8_loop (crc8_loop r A) B := by
  induction A generalizing r with
  | nil => rfl
  | cons a A ih => simp [crc8_loop, ih]

theorem crc8_loop_eq_foldl (r : crc8_t) (S : List Nat) :
    crc8_loop r S = S.foldl upd_state r := by
  induction S generalizing r with
  | nil => rfl
  | cons a S ih => simp [crc8_loop, ih, upd_state]

theorem crc8_loop_xor (r : crc8_t) (S : List Nat) :
    (crc8_loop r S).xor = r.xor := by
  induction S generalizing r with
  | nil => rfl
  | cons a S ih => simp [crc8_loop, ih, crc8_upd]

theorem xor_eq_self_iff (a x : Nat) : a ^^^ x = a ↔ x = 0 := by
  constructor
  · intro h
    have h2 : a ^^^ x = a ^^^ 0 := by simpa using h
    exact Nat.xor_right_inj.mp h2
  · rintro rfl
    simp

/-! ## Incremental use -/

/-- C3: running `crc8` over `A` and then over `B` on the same recipe leaves
exactly the recipe state (and returns the value) that one run of `crc8` over
`A ++ B` gives from an identical copy; hence `crc8_fin` agrees as well. -/
theorem crc8_incremental (r : crc8_t) (A B : List Nat) :
    (crc8 (crc8 r A).1 B).1 = (crc8 r (A ++ B)).1 ∧
    (crc8 (crc8 r A).1 B).2 = (crc8 r (A ++ B)).2 ∧
    crc8_fin (crc8 (crc8 r A).1 B).1 = crc8_fin (crc8 r (A ++ B)).1 := by
  simp [crc8, crc8_loop_append]

/-- C4: `crc8` leaves the recipe in the state reached by calling `crc8_upd`
once per byte in order (a left fold), returns the `crc` field of that state,
and does not apply the xor-out mask: the mask is still to be applied by
`crc8_fin`, whose result differs from the value of `crc8` unless the mask is
zero. -/
theorem crc8_eq_foldl_upd (r : crc8_t) (S : List Nat) :
    (crc8 r S).1 = S.foldl (fun s b => (crc8_upd s b).1) r ∧
    (crc8 r S).2 = (S.foldl (fun s b => (crc8_upd s b).1) r).crc ∧
    (crc8_fin (crc8 r S).1).2 = (S.foldl (fun s b => (crc8_upd s b).1) r).crc ^^^ r.xor ∧
    ((crc8_fin (crc8 r S).1).2 = (crc8 r S).2 ↔ r.xor = 0) := by
  have h : crc8_loop r S = S.foldl (fun s b => (crc8_upd s b).1) r :=
    crc8_loop_eq_foldl r S
  have hx := crc8_loop_xor r S
  refine ⟨h, congrArg crc8_t.crc h, ?_, ?_⟩
  · simp only [crc8, crc8_fin, hx]
    rw [h]
  · simp only [crc8, crc8_fin, hx]
    exact xor_eq_self_iff _ _

/-! ## The bit loop of `crc8_upd` -/

theorem and_128_ne_zero_iff (c : Nat) : c &&& 0x80 ≠ 0 ↔ c.testBit 7 = true := by
  have h := Nat.and_two_pow c 7
  norm_num at h
  rw [h]
  cases c.testBit 7 <;> simp

theorem crc8_upd_body_eq_spec (r : crc8_t) (c : Nat)
    (hn : r.refio = 0x80 ∨ r.refio = 0x01) :
    crc8_upd_body r c = spec_bit_step r.refio r.poly c := by
  rcases hn with h | h
  · have h7 := and_128_ne_zero_iff c
    by_cases hb : c.testBit 7 = true
    · have hp : c &&& 128 ≠ 0 := h7.mpr hb
      simp [crc8_upd_body, spec_bit_step, h, hb, hp]
    · have hp : c &&& 128 = 0 := by
        by_contra hc
        exact hb (h7.mp hc)
      simp [crc8_upd_body, spec_bit_step, h, hb, hp]
  · rcases Nat.mod_two_eq_zero_or_one c with hm | hm <;>
      simp [crc8_upd_body, spec_bit_step, h, hm, Nat.and_one_is_mod, Nat.testBit_zero]

theorem crc8_upd_loop_eq_iterate (r : crc8_t) (c : Nat) :
    crc8_upd_loop r 8 0 c = (crc8_upd_body r)^[8] c := by
  simp [crc8_upd_loop]

/-- C5: on a normalized recipe (`refio` is `0x80` or `0x01`) `crc8_upd`
computes the bit loop of the specification, and the value it returns equals
the `crc` field stored in the recipe after the call. -/
theorem crc8_upd_computes_spec_loop (r : crc8_t) (b : Nat)
    (hn : r.refio = 0x80 ∨ r.refio = 0x01) :
    (crc8_upd r b).2 = spec_update r b ∧
    (crc8_upd r b).1.crc = (crc8_upd r b).2 ∧
    (crc8_upd r b).1 = { r with crc := spec_update r b } := by
  have hf : crc8_upd_body r = spec_bit_step r.refio r.poly :=
    funext fun c => crc8_upd_body_eq_spec r c hn
  have h : (crc8_upd r b).2 = spec_update r b := by
    simp only [crc8_upd, spec_update, crc8_upd_loop_eq_iterate, hf]
  refine ⟨h, rfl, ?_⟩
  rw [crc8_upd_fst, h]

/-- Witness for C5: the reflected recipe CRC-8/MAXIM and the byte `0x31`. -/
theorem crc8_upd_computes_spec_loop_witness :
    (CRC8_MAXIM.refio = 0x80 ∨ CRC8_MAXIM.refio = 0x01) ∧
    (crc8_upd CRC8_MAXIM 0x31).2 = spec_update CRC8_MAXIM 0x31 ∧
    (crc8_upd CRC8_MAXIM 0x31).1.crc = (crc8_upd CRC8_MAXIM 0x31).2 ∧
    (crc8_upd CRC8_MAXIM 0x31).1 = { CRC8_MAXIM with crc := spec_update CRC8_MAXIM 0x31 } :=
  ⟨by decide, crc8_upd_computes_spec_loop CRC8_MAXIM 0x31 (by decide)⟩

/-! ## Empty input and `crc8_fin` -/

/-- C6: `crc8` over a zero-length byte sequence leaves every field of the
recipe unchanged and returns `r.crc`. -/
theorem crc8_empty (r : crc8_t) :
    (crc8 r []).1 = r ∧ (crc8 r []).2 = r.crc :=
  ⟨rfl, rfl⟩

/-- C7: `crc8_fin` sets `r.crc` to `r.crc XOR r.xor` (no other field changes)
and returns that value; on a recipe that has processed no bytes it returns
the initial value XOR the xor-out mask. -/
theorem crc8_fin_xor_out (r : crc8_t) :
    (crc8_fin r).1 = { r with crc := r.crc ^^^ r.xor } ∧
    (crc8_fin r).2 = r.crc ^^^ r.xor ∧
    (crc8_fin (crc8 r []).1).2 = r.crc ^^^ r.xor :=
  ⟨rfl, rfl, rfl⟩

theorem fin_state_of_xor_zero (r : crc8_t) (h : r.xor = 0) : fin_state r = r := by
  cases r
  simp_all [fin_state, crc8_fin]

theorem fin_state_iterate_of_xor_zero (r : crc8_t) (h : r.xor = 0) (n : Nat) :
    fin_state^[n] r = r := by
  induction n with
  | zero => rfl
  | succ n ih => rw [Function.iterate_succ_apply, fin_state_of_xor_zero r h, ih]

/-- C8: calling `crc8_fin` twice returns the recipe to its pre-finish state;
the second call yields the same value as the first if and only if
`r.xor = 0x00`, and in that case any number of calls leaves the recipe (so
its `crc`) unchanged and every call returns `r.crc`. -/
theorem crc8_fin_twice (r : crc8_t) :
    (crc8_fin (crc8_fin r).1).1 = r ∧
    ((crc8_fin (crc8_fin r).1).2 = (crc8_fin r).2 ↔ r.xor = 0) ∧
    (r.xor = 0 → ∀ n : Nat,
      (fin_state^[n] r).crc = r.crc ∧ (crc8_fin (fin_state^[n] r)).2 = r.crc) := by
  refine ⟨?_, ?_, ?_⟩
  · cases r
    simp [crc8_fin, Nat.xor_cancel_right]
  · simp only [crc8_fin]
    exact xor_eq_self_iff _ _
  · intro h n
    rw [fin_state_iterate_of_xor_zero r h n]
    simp [crc8_fin, h]

/-- Witness for C8 at CRC-8/SMBUS, whose xor-out mask is zero: three calls of
`crc8_fin` leave `crc` unchanged and a fourth call returns it. -/
theorem crc8_fin_twice_witness :
    CRC8_SMBUS.xor = 0 ∧
    (fin_state^[3] CRC8_SMBUS).crc = CRC8_SMBUS.crc ∧
    (crc8_fin (fin_state^[3] CRC8_SMBUS)).2 = CRC8_SMBUS.crc :=
  ⟨rfl, (crc8_fin_twice CRC8_SMBUS).2.2 rfl 3⟩

/-! ## `crc8_init` -/

theorem one_testBit (j : Nat) : (1 : Nat).testBit j = decide (j = 0) := by
  have h := @Nat.testBit_two_pow 0 j
  simpa [eq_comm] using h

/-- The eight passes of the loop of `crc8_init`, written out. -/
theorem crc8_init_loop_unrolled (P : Nat) :
    (crc8_init_loop 8 0 0 P).1 =
      ((((((((((((((((0 <<< 1) % 2 ^ 8 ||| (P &&& 1)) <<< 1) % 2 ^ 8 |||
        (P >>> 1 &&& 1)) <<< 1) % 2 ^ 8 ||| (P >>> 2 &&& 1)) <<< 1) % 2 ^ 8 |||
        (P >>> 3 &&& 1)) <<< 1) % 2 ^ 8 ||| (P >>> 4 &&& 1)) <<< 1) % 2 ^ 8 |||
        (P >>> 5 &&& 1)) <<< 1) % 2 ^ 8 ||| (P >>> 6 &&& 1)) <<< 1) % 2 ^ 8 |||
        (P >>> 7 &&& 1)) := by
  simp [crc8_init_loop, ← Nat.shiftRight_add]

theorem crc8_init_loop_testBit (P i : Nat) (hi : i < 8) :
    (crc8_init_loop 8 0 0 P).1.testBit i = P.testBit (7 - i) := by
  rw [crc8_init_loop_unrolled]
  simp only [Nat.testBit_or, Nat.testBit_mod_two_pow, Nat.testBit_shiftLeft, Nat.testBit_and,
    Nat.testBit_shiftRight, one_testBit]
  interval_cases i <;> simp

theorem crc8_init_loop_lt (P : Nat) : (crc8_init_loop 8 0 0 P).1 < 256 := by
  rw [crc8_init_loop_unrolled]
  have h1 : P >>> 7 &&& 1 < 2 ^ 8 :=
    lt_of_le_of_lt Nat.and_le_right (by norm_num)
  exact Nat.or_lt_two_pow (Nat.mod_lt _ (by norm_num)) h1

theorem crc8_init_of_reflect (r : crc8_t) (hr : r.refio &&& 0x01 ≠ 0) :
    crc8_init r = { r with poly := (crc8_init_loop 8 0 0 r.poly).1 } := by
  unfold crc8_init
  exact if_pos hr

theorem crc8_init_of_not_reflect (r : crc8_t) (hr : r.refio &&& 0x01 = 0) :
    crc8_init r = { r with refio := 0x80 } := by
  unfold crc8_init
  exact if_neg (not_not.mpr hr)

/-- C9: when the reflect flag is set (`refio & 0x01` is not zero) `crc8_init`
stores in `poly` the 8-bit reversal of the old polynomial: bit `i` of the new
`poly` is bit `7 - i` of the old one for every `i` in 0..7, and the new `poly`
is a byte; for instance `0x31` becomes `0x8C`.  The fields `crc` and `xor`
are unchanged. -/
theorem crc8_init_reverses_poly (r : crc8_t) (hr : r.refio &&& 0x01 ≠ 0) :
    (∀ i, i < 8 → (crc8_init r).poly.testBit i = r.poly.testBit (7 - i)) ∧
    (crc8_init r).poly < 256 ∧
    (r.poly = 0x31 → (crc8_init r).poly = 0x8C) ∧
    (crc8_init r).crc = r.crc ∧ (crc8_init r).xor = r.xor := by
  have hp : (crc8_init r).poly = (crc8_init_loop 8 0 0 r.poly).1 := by
    rw [crc8_init_of_reflect r hr]
  refine ⟨?_, ?_, ?_, ?_, ?_⟩
  · intro i hi
    rw [hp]
    exact crc8_init_loop_testBit r.poly i hi
  · rw [hp]
    exact crc8_init_loop_lt r.poly
  · intro h31
    rw [hp, h31]
    decide
  · rw [crc8_init_of_reflect r hr]
  · rw [crc8_init_of_reflect r hr]

/-- Witness for C9: the standard CRC-8/MAXIM polynomial `0x31` with the
reflect flag `0x01`. -/
theorem crc8_init_reverses_poly_witness :
    (crc8_init ⟨0x00, 0x31, 0x01, 0x00⟩).poly = 0x8C ∧
    (∀ i, i < 8 →
      (crc8_init ⟨0x00, 0x31, 0x01, 0x00⟩).poly.testBit i = (0x31 : Nat).testBit (7 - i)) :=
  ⟨(crc8_init_reverses_poly ⟨0x00, 0x31, 0x01, 0x00⟩ (by decide)).2.2.1 rfl,
   (crc8_init_reverses_poly ⟨0x00, 0x31, 0x01, 0x00⟩ (by decide)).1⟩

/-- C10: when the reflect flag is false (`refio & 0x01` is zero, as for `0x00`
and `0x80`) `crc8_init` leaves `poly`, `crc` and `xor` untouched and sets
`refio` to `CRC8_REFIO_FALSE` (`0x80`). -/
theorem crc8_init_non_reflected (r : crc8_t) (hr : r.refio &&& 0x01 = 0) :
    crc8_init r = { r with refio := CRC8_REFIO_FALSE } ∧
    (crc8_init r).poly = r.poly ∧ (crc8_init r).crc = r.crc ∧
    (crc8_init r).xor = r.xor ∧ (crc8_init r).refio = 0x80 := by
  rw [crc8_init_of_not_reflect r hr]
  exact ⟨rfl, rfl, rfl, rfl, rfl⟩

/-- Witness for C10: the custom recipe `00310000` of the usage text (flag byte
`0x00`). -/
theorem crc8_init_non_reflected_witness :
    (0x00 : Nat) &&& 0x01 = 0 ∧
    crc8_init ⟨0x00, 0x31, 0x00, 0x00⟩ = ⟨0x00, 0x31, 0x80, 0x00⟩ :=
  ⟨by decide, (crc8_init_non_reflected ⟨0x00, 0x31, 0x00, 0x00⟩ (by decide)).1⟩

/-! ## Bit reversal -/

theorem rev8_lt (x : Nat) : rev8 x < 256 := by
  have h : ∀ y i : Nat, i < 8 → (y &&& 1) <<< i < 2 ^ 8 := by
    intro y i hi
    have h1 : y &&& 1 < 2 ^ 1 := lt_of_le_of_lt Nat.and_le_right (by norm_num)
    have h2 := Nat.shiftLeft_lt (m := i) h1
    exact lt_of_lt_of_le h2 (Nat.pow_le_pow_right (by norm_num) (by omega))
  unfold rev8
  have e : (256 : Nat) = 2 ^ 8 := by norm_num
  rw [e]
  repeat' apply Nat.or_lt_two_pow
  all_goals exact h _ _ (by norm_num)

theorem rev8_testBit (x j : Nat) (hj : j < 8) : (rev8 x).testBit j = x.testBit (7 - j) := by
  unfold rev8
  simp only [Nat.testBit_or, Nat.testBit_shiftLeft, Nat.testBit_and, Nat.testBit_shiftRight,
    one_testBit]
  interval_cases j <;> simp

theorem testBit_of_lt_256 (x j : Nat) (hx : x < 256) (hj : 8 ≤ j) : x.testBit j = false := by
  apply Nat.testBit_eq_false_of_lt
  have e : (256 : Nat) = 2 ^ 8 := by norm_num
  rw [e] at hx
  exact lt_of_lt_of_le hx (Nat.pow_le_pow_right (by norm_num) hj)

theorem crc8_init_loop_eq_rev8 (P : Nat) : (crc8_init_loop 8 0 0 P).1 = rev8 P := by
  apply Nat.eq_of_testBit_eq
  intro i
  by_cases hi : i < 8
  · rw [crc8_init_loop_testBit P i hi, rev8_testBit P i hi]
  · rw [testBit_of_lt_256 _ i (crc8_init_loop_lt P) (by omega),
      testBit_of_lt_256 _ i (rev8_lt P) (by omega)]

theorem rev8_rev8 (x : Nat) (hx : x < 256) : rev8 (rev8 x) = x := by
  apply Nat.eq_of_testBit_eq
  intro i
  by_cases hi : i < 8
  · rw [rev8_testBit _ i hi, rev8_testBit _ (7 - i) (by omega)]
    congr 1
    omega
  · rw [testBit_of_lt_256 _ i (rev8_lt _) (by omega), testBit_of_lt_256 _ i hx (by omega)]

/-! ## The flag byte after `crc8_init` -/

/-- C11 (counterexample): the recipe with flag byte `0x81` passes the test
`refio & 0x01` of `crc8_init`, yet after `crc8_init` its `refio` is still
`0x81`, not `CRC8_REFIO_TRUE`; the loop body of the following `crc8_upd` then
shifts left and tests bit 7 as well: on the working byte `0x80` it gives
`0x8C` (the shifted-out bit 7 selected the polynomial) where a right shift
testing only bit 0 gives `0x40`. -/
theorem crc8_init_flag_counterexample :
    (⟨0x00, 0x31, 0x81, 0x00⟩ : crc8_t).refio &&& 0x01 ≠ 0 ∧
    (crc8_init ⟨0x00, 0x31, 0x81, 0x00⟩).refio = 0x81 ∧
    (crc8_init ⟨0x00, 0x31, 0x81, 0x00⟩).refio ≠ CRC8_REFIO_TRUE ∧
    crc8_upd_body (crc8_init ⟨0x00, 0x31, 0x81, 0x00⟩) 0x80 = 0x8C ∧
    crc8_upd_body (crc8_init ⟨0x00, 0x31, 0x81, 0x00⟩) 0x80 ≠ 0x80 >>> 1 := by
  decide

/-- C11 (amended): for every recipe whose `refio` is `CRC8_REFIO_TRUE` (`0x01`)
the flag is still `0x01` after `crc8_init`, so that a following `crc8_upd`
shifts right and tests only bit 0 in each of its 8 passes. -/
theorem crc8_init_reflected_mode (r : crc8_t) (hr : r.refio = CRC8_REFIO_TRUE) :
    (crc8_init r).refio = CRC8_REFIO_TRUE ∧
    (∀ c : Nat, crc8_upd_body (crc8_init r) c =
      (c >>> 1) ^^^ (if c.testBit 0 then (crc8_init r).poly else 0)) ∧
    (∀ b : Nat, (crc8_upd (crc8_init r) b).2 =
      (fun w => (w >>> 1) ^^^ (if w.testBit 0 then (crc8_init r).poly else 0))^[8]
        (r.crc ^^^ b)) := by
  have h1 : r.refio &&& 0x01 ≠ 0 := by
    rw [hr]
    decide
  have hf : (crc8_init r).refio = 0x01 := by
    rw [crc8_init_of_reflect r h1]
    exact hr
  have hc : (crc8_init r).crc = r.crc := by
    rw [crc8_init_of_reflect r h1]
  have hb : ∀ c : Nat, crc8_upd_body (crc8_init r) c =
      (c >>> 1) ^^^ (if c.testBit 0 then (crc8_init r).poly else 0) := by
    intro c
    rw [crc8_upd_body_eq_spec (crc8_init r) c (Or.inr hf), hf]
    simp [spec_bit_step]
  refine ⟨hf, hb, ?_⟩
  intro b
  have hfun : crc8_upd_body (crc8_init r) =
      fun w => (w >>> 1) ^^^ (if w.testBit 0 then (crc8_init r).poly else 0) :=
    funext hb
  simp only [crc8_upd, crc8_upd_loop_eq_iterate, hc]
  rw [hfun]

/-- Witness for C11 (amended): the standard CRC-8/MAXIM recipe `00310100`. -/
theorem crc8_init_reflected_mode_witness :
    (⟨0x00, 0x31, 0x01, 0x00⟩ : crc8_t).refio = CRC8_REFIO_TRUE ∧
    (crc8_init ⟨0x00, 0x31, 0x01, 0x00⟩).refio = CRC8_REFIO_TRUE :=
  ⟨rfl, (crc8_init_reflected_mode ⟨0x00, 0x31, 0x01, 0x00⟩ rfl).1⟩

/-- C12: on a recipe with `refio = 0x01` (fields being bytes) `crc8_init`
stores the 8-bit reversal of `poly`, applying it twice re-reverses the
polynomial and gives back the original recipe, so the twice-normalized recipe
differs from the once-normalized one exactly when `poly` is not its own 8-bit
reversal; on a recipe with `refio & 0x01 = 0` `crc8_init` is idempotent. -/
theorem crc8_init_twice (r : crc8_t) (hp : r.poly < 256) :
    (r.refio = 0x01 →
      (crc8_init r).poly = rev8 r.poly ∧
      (crc8_init (crc8_init r)).poly = rev8 (rev8 r.poly) ∧
      crc8_init (crc8_init r) = r ∧
      (crc8_init (crc8_init r) ≠ crc8_init r ↔ r.poly ≠ rev8 r.poly)) ∧
    (r.refio &&& 0x01 = 0 → crc8_init (crc8_init r) = crc8_init r) := by
  constructor
  · intro hr
    have h1 : r.refio &&& 0x01 ≠ 0 := by
      rw [hr]
      decide
    have e1 : crc8_init r = { r with poly := rev8 r.poly } := by
      rw [crc8_init_of_reflect r h1, crc8_init_loop_eq_rev8]
    have h2 : (crc8_init r).refio &&& 0x01 ≠ 0 := by
      rw [e1]
      exact h1
    have e2 : crc8_init (crc8_init r) = r := by
      rw [crc8_init_of_reflect _ h2, crc8_init_loop_eq_rev8, e1]
      cases r
      simp only [crc8_t.mk.injEq, and_true, true_and]
      exact rev8_rev8 _ hp
    refine ⟨by rw [e1], ?_, e2, ?_⟩
    · rw [e2]
      exact (rev8_rev8 _ hp).symm
    · rw [e2, e1]
      cases r
      simp only [ne_eq, crc8_t.mk.injEq, and_true, true_and]
  · intro hr
    have e1 := crc8_init_of_not_reflect r hr
    have h2 : (crc8_init r).refio &&& 0x01 = 0 := by
      rw [e1]
      show (0x80 : Nat) &&& 0x01 = 0
      decide
    rw [crc8_init_of_not_reflect _ h2, e1]

/-- Witness for C12: the raw CRC-8/MAXIM recipe (polynomial `0x31`, not its
own reversal) and the raw SMBUS recipe with flag byte `0x00`. -/
theorem crc8_init_twice_witness :
    (0x31 : Nat) < 256 ∧
    crc8_init (crc8_init ⟨0x00, 0x31, 0x01, 0x00⟩) = ⟨0x00, 0x31, 0x01, 0x00⟩ ∧
    crc8_init (crc8_init ⟨0x00, 0x31, 0x01, 0x00⟩) ≠ crc8_init ⟨0x00, 0x31, 0x01, 0x00⟩ :=
  ⟨by decide,
   ((crc8_init_twice ⟨0x00, 0x31, 0x01, 0x00⟩ (by decide)).1 rfl).2.2.1,
   ((crc8_init_twice ⟨0x00, 0x31, 0x01, 0x00⟩ (by decide)).1 rfl).2.2.2.mpr (by decide)⟩

/-! ## End-to-end example and the two orientations -/

/-- C13: `crc8` over the 7 bytes `ff 0c 55 ab 00 00 10` with the predefined
`CRC8_SMBUS` recipe followed by `crc8_fin` yields `0xBD`, which is the
reference CRC-8/SMBUS value of the sequence: the remainder, by long division
over GF(2), of the message polynomial times `x^8` modulo `x^8 + x^2 + x + 1`
(`0x107`). -/
theorem smbus_example :
    checksum CRC8_SMBUS [0xff, 0x0c, 0x55, 0xab, 0x00, 0x00, 0x10] = 0xBD ∧
    msg_poly [0xff, 0x0c, 0x55, 0xab, 0x00, 0x00, 0x10] = 0xff0c55ab000010 ∧
    gf2_rem_loop 0x107 8 56 (0xff0c55ab000010 <<< 8) = 0xBD ∧
    crc8_reference CRC8_SMBUS.poly CRC8_SMBUS.crc
      [0xff, 0x0c, 0x55, 0xab, 0x00, 0x00, 0x10] = 0xBD := by
  refine ⟨?_, ?_, ?_, ?_⟩ <;> decide

/-- C14 (counterexample): the recipe `00070000` (SMBUS parameters with the
flag byte `0x00` of the `IIPPRRXX` encoding) has `refio & 0x01 = 0`, yet over
"123456789" the checksum without `crc8_init` is `0x00` while the checksum
with `crc8_init` called first is `0xF4`. -/
theorem skip_init_counterexample :
    (⟨0x00, 0x07, 0x00, 0x00⟩ : crc8_t).refio &&& 0x01 = 0 ∧
    checksum ⟨0x00, 0x07, 0x00, 0x00⟩ check_input = 0x00 ∧
    checksum (crc8_init ⟨0x00, 0x07, 0x00, 0x00⟩) check_input = 0xF4 ∧
    checksum ⟨0x00, 0x07, 0x00, 0x00⟩ check_input ≠
      checksum (crc8_init ⟨0x00, 0x07, 0x00, 0x00⟩) check_input := by
  refine ⟨?_, ?_, ?_, ?_⟩ <;> decide

/-- C14 (amended): for every recipe whose `refio` is `CRC8_REFIO_FALSE`
(`0x80`) `crc8_init` changes nothing, so for every byte sequence the checksum
obtained by `crc8` followed by `crc8_fin` without calling `crc8_init` equals
the checksum obtained when `crc8_init` is called first. -/
theorem skip_init_harmless (r : crc8_t) (hr : r.refio = CRC8_REFIO_FALSE) :
    crc8_init r = r ∧
    ∀ S : List Nat, checksum r S = checksum (crc8_init r) S := by
  have h0 : r.refio &&& 0x01 = 0 := by
    rw [hr]
    decide
  have e : crc8_init r = r := by
    rw [crc8_init_of_not_reflect r h0]
    cases r
    simp only [crc8_t.mk.injEq, true_and, and_true]
    exact hr.symm
  exact ⟨e, fun S => by rw [e]⟩

/-- Witness for C14 (amended): the recipe of the documentation example of
`crc8_init` (polynomial `0x31`, `CRC8_REFIO_FALSE`). -/
theorem skip_init_harmless_witness :
    (⟨0x00, 0x31, 0x80, 0x00⟩ : crc8_t).refio = CRC8_REFIO_FALSE ∧
    checksum ⟨0x00, 0x31, 0x80, 0x00⟩ check_input =
      checksum (crc8_init ⟨0x00, 0x31, 0x80, 0x00⟩) check_input :=
  ⟨rfl, (skip_init_harmless ⟨0x00, 0x31, 0x80, 0x00⟩ rfl).2 check_input⟩

/-- C15: the reflect path differs from the non-reflect path: on the single
byte `0x01` the recipe `{0x00, 0x31, 0x01, 0x00}` after `crc8_init` gives
`0x5E` and the recipe `{0x00, 0x31, 0x80, 0x00}` gives `0x31`; so for some
byte sequence the two checksums differ. -/
theorem reflect_path_differs :
    checksum (crc8_init ⟨0x00, 0x31, 0x01, 0x00⟩) [0x01] = 0x5E ∧
    checksum ⟨0x00, 0x31, 0x80, 0x00⟩ [0x01] = 0x31 ∧
    ∃ S : List Nat,
      checksum (crc8_init ⟨0x00, 0x31, 0x01, 0x00⟩) S ≠ checksum ⟨0x00, 0x31, 0x80, 0x00⟩ S := by
  refine ⟨by decide, by decide, [0x01], by decide⟩

/-! ## Frame -/

theorem crc8_loop_frame (r : crc8_t) (S : List Nat) :
    crc8_loop r S = { r with crc := (crc8_loop r S).crc } := by
  induction S generalizing r with
  | nil => rfl
  | cons a S ih =>
    simp only [crc8_loop]
    rw [ih]
    rfl

/-- C18: `crc8_upd`, `crc8` and `crc8_fin` change no field other than `crc`
(`poly`, `refio` and `xor` are unchanged), and `crc8_init` changes neither
`crc` nor `xor`. -/
theorem configuration_preserved (r : crc8_t) (b : Nat) (S : List Nat) :
    ((crc8_upd r b).1.poly = r.poly ∧ (crc8_upd r b).1.refio = r.refio ∧
      (crc8_upd r b).1.xor = r.xor) ∧
    ((crc8 r S).1.poly = r.poly ∧ (crc8 r S).1.refio = r.refio ∧
      (crc8 r S).1.xor = r.xor) ∧
    ((crc8_fin r).1.poly = r.poly ∧ (crc8_fin r).1.refio = r.refio ∧
      (crc8_fin r).1.xor = r.xor) ∧
    ((crc8_init r).crc = r.crc ∧ (crc8_init r).xor = r.xor) := by
  refine ⟨⟨rfl, rfl, rfl⟩, ?_, ⟨rfl, rfl, rfl⟩, ?_⟩
  · have h := crc8_loop_frame r S
    simp only [crc8]
    rw [h]
    exact ⟨rfl, rfl, rfl⟩
  · by_cases hr : r.refio &&& 0x01 = 0
    · rw [crc8_init_of_not_reflect r hr]
      exact ⟨rfl, rfl⟩
    · rw [crc8_init_of_reflect r hr]
      exact ⟨rfl, rfl⟩

/-! ## XOR-linearity of the engine -/

theorem shiftLeft_one_mod_xor (a b : Nat) :
    ((a ^^^ b) <<< 1) % 2 ^ 8 = ((a <<< 1) % 2 ^ 8) ^^^ ((b <<< 1) % 2 ^ 8) := by
  apply Nat.eq_of_testBit_eq
  intro i
  simp only [Nat.testBit_xor, Nat.testBit_mod_two_pow, Nat.testBit_shiftLeft]
  cases decide (i < 8) <;> cases decide (i ≥ 1) <;> simp

theorem shiftRight_one_xor (a b : Nat) :
    (a ^^^ b) >>> 1 = (a >>> 1) ^^^ (b >>> 1) := by
  apply Nat.eq_of_testBit_eq
  intro i
  simp only [Nat.testBit_xor, Nat.testBit_shiftRight]

theorem ite_xor_poly (p q : Bool) (P : Nat) :
    (if (p ^^ q) = true then P else 0) =
      (if p = true then P else 0) ^^^ (if q = true then P else 0) := by
  cases p <;> cases q <;> simp

theorem spec_bit_step_xor (refio poly a b : Nat) :
    spec_bit_step refio poly (a ^^^ b) =
      spec_bit_step refio poly a ^^^ spec_bit_step refio poly b := by
  have e : (256 : Nat) = 2 ^ 8 := by norm_num
  unfold spec_bit_step
  split
  · rw [e, shiftLeft_one_mod_xor, Nat.testBit_xor, ite_xor_poly]
    ac_rfl
  · split
    · rw [shiftRight_one_xor, Nat.testBit_xor, ite_xor_poly]
      ac_rfl
    · rfl

theorem crc8_upd_body_xor (r : crc8_t) (hn : r.refio = 0x80 ∨ r.refio = 0x01) (a b : Nat) :
    crc8_upd_body r (a ^^^ b) = crc8_upd_body r a ^^^ crc8_upd_body r b := by
  rw [crc8_upd_body_eq_spec r _ hn, crc8_upd_body_eq_spec r a hn,
    crc8_upd_body_eq_spec r b hn]
  exact spec_bit_step_xor _ _ _ _

theorem iterate_xor (f : Nat → Nat) (hf : ∀ a b, f (a ^^^ b) = f a ^^^ f b) (n a b : Nat) :
    f^[n] (a ^^^ b) = f^[n] a ^^^ f^[n] b := by
  induction n generalizing a b with
  | zero => rfl
  | succ n ih => rw [Function.iterate_succ_apply, Function.iterate_succ_apply,
      Function.iterate_succ_apply, hf, ih]

/-- The recipe after `crc8_upd`, for a recipe written as `r` with its `crc`
field replaced. -/
theorem crc8_upd_with_crc (r : crc8_t) (c b : Nat) :
    (crc8_upd { r with crc := c } b).1 =
      { r with crc := (crc8_upd_body r)^[8] (c ^^^ b) } := by
  have h : (crc8_upd { r with crc := c } b).2 = (crc8_upd_body r)^[8] (c ^^^ b) := by
    simp only [crc8_upd, crc8_upd_loop_eq_iterate]
    rfl
  rw [crc8_upd_fst, h]

theorem crc8_loop_cons_with_crc (r : crc8_t) (c b : Nat) (S : List Nat) :
    crc8_loop { r with crc := c } (b :: S) =
      crc8_loop { r with crc := (crc8_upd_body r)^[8] (c ^^^ b) } S := by
  rw [crc8_loop, crc8_upd_with_crc]

theorem crc8_reg_xor (r : crc8_t) (hn : r.refio = 0x80 ∨ r.refio = 0x01)
    (A : List Nat) : ∀ (B : List Nat) (c1 c2 : Nat), A.length = B.length →
    crc8_reg { r with crc := c1 ^^^ c2 } (xor_bytes A B) =
      crc8_reg { r with crc := c1 } A ^^^ crc8_reg { r with crc := c2 } B := by
  induction A with
  | nil =>
    intro B c1 c2 h
    cases B with
    | nil => rfl
    | cons b B => simp at h
  | cons a A ih =>
    intro B c1 c2 h
    cases B with
    | nil => simp at h
    | cons b B =>
      have hl : A.length = B.length := by simpa using h
      have e : (c1 ^^^ c2) ^^^ (a ^^^ b) = (c1 ^^^ a) ^^^ (c2 ^^^ b) := by ac_rfl
      simp only [crc8_reg, crc8, xor_bytes, List.zipWith_cons_cons] at ih ⊢
      rw [crc8_loop_cons_with_crc, crc8_loop_cons_with_crc, crc8_loop_cons_with_crc, e,
        iterate_xor _ (crc8_upd_body_xor r hn)]
      exact ih B _ _ hl

/-- C19: for a normalized configuration (`refio` is `0x01` or `0x80`, `poly`
arbitrary), all initial values `c1`, `c2` and all byte sequences `A`, `B` of
equal length, the `crc` register after `crc8` started from `c1 XOR c2` over
the bytewise XOR of `A` and `B` is the XOR of the register after `crc8` from
`c1` over `A` and the register after `crc8` from `c2` over `B`; and
`crc8_upd` depends on `crc` and the byte only through `crc XOR byte`. -/
theorem crc8_xor_linear (r : crc8_t) (c1 c2 : Nat) (A B : List Nat)
    (hn : r.refio = 0x01 ∨ r.refio = 0x80) (hlen : A.length = B.length) :
    crc8_reg { r with crc := c1 ^^^ c2 } (xor_bytes A B) =
      crc8_reg { r with crc := c1 } A ^^^ crc8_reg { r with crc := c2 } B ∧
    (∀ c b c' b' : Nat, c ^^^ b = c' ^^^ b' →
      (crc8_upd { r with crc := c } b).2 = (crc8_upd { r with crc := c' } b').2) := by
  refine ⟨crc8_reg_xor r hn.symm A B c1 c2 hlen, ?_⟩
  intro c b c' b' h
  simp only [crc8_upd]
  rw [h]
  rfl

/-- Witness for C19: CRC-8/MAXIM from the initial values `0x0f` and `0xf0`
over two 2-byte sequences. -/
theorem crc8_xor_linear_witness :
    crc8_reg { CRC8_MAXIM with crc := 0x0f ^^^ 0xf0 } (xor_bytes [0x31, 0x32] [0x80, 0x01]) =
      crc8_reg { CRC8_MAXIM with crc := 0x0f } [0x31, 0x32] ^^^
        crc8_reg { CRC8_MAXIM with crc := 0xf0 } [0x80, 0x01] :=
  (crc8_xor_linear CRC8_MAXIM 0x0f 0xf0 [0x31, 0x32] [0x80, 0x01] (by decide) (by decide)).1

/-! ## Single-byte error detection -/

theorem testBit_7_of_lt_256 (w : Nat) (hw : w < 256) : w.testBit 7 = decide (128 ≤ w) := by
  rw [Nat.testBit_to_div_mod]
  have : w / 2 ^ 7 % 2 = 1 ↔ 128 ≤ w := by
    norm_num
    omega
  simp only [this]

theorem spec_bit_step_lt (refio poly w : Nat) (hp : poly < 256) (hw : w < 256) :
    spec_bit_step refio poly w < 256 := by
  have e : (256 : Nat) = 2 ^ 8 := by norm_num
  have h0 : (0 : Nat) < 2 ^ 8 := by norm_num
  have hs : w >>> 1 < 2 ^ 8 := by
    rw [Nat.shiftRight_eq_div_pow]
    omega
  rw [e] at hp ⊢
  unfold spec_bit_step
  split
  · split
    · exact Nat.xor_lt_two_pow (Nat.mod_lt _ (by norm_num)) hp
    · exact Nat.xor_lt_two_pow (Nat.mod_lt _ (by norm_num)) h0
  · split
    · split
      · exact Nat.xor_lt_two_pow hs hp
      · exact Nat.xor_lt_two_pow hs h0
    · omega

theorem spec_bit_step_ker (refio poly w : Nat) (hp : poly < 256) (hw : w < 256)
    (hm : (refio = 0x80 ∧ poly.testBit 0 = true) ∨ (refio = 0x01 ∧ poly.testBit 7 = true))
    (h : spec_bit_step refio poly w = 0) : w = 0 := by
  rcases hm with ⟨hr, hb⟩ | ⟨hr, hb⟩
  · rw [Nat.testBit_zero] at hb
    have hodd : poly % 2 = 1 := by simpa using hb
    rw [hr] at h
    simp only [spec_bit_step, if_true] at h
    rw [testBit_7_of_lt_256 w hw, Nat.shiftLeft_eq] at h
    by_cases h7 : 128 ≤ w
    · simp only [h7, decide_True, if_true] at h
      have := Nat.xor_eq_zero.mp h
      omega
    · simp only [h7, decide_False, Nat.xor_zero] at h
      simp at h
      omega
  · rw [testBit_7_of_lt_256 poly hp] at hb
    have hge : 128 ≤ poly := by simpa using hb
    rw [hr] at h
    unfold spec_bit_step at h
    rw [if_neg (by norm_num), if_pos rfl] at h
    have h2 := Nat.xor_eq_zero.mp h
    rw [Nat.testBit_zero, Nat.shiftRight_eq_div_pow] at h2
    by_cases h0 : w % 2 = 1
    · simp only [h0, decide_True, if_true] at h2
      omega
    · simp only [h0, decide_False] at h2
      simp at h2
      omega

theorem crc8_upd_body_lt (r : crc8_t) (hn : r.refio = 0x80 ∨ r.refio = 0x01)
    (hp : r.poly < 256) (w : Nat) (hw : w < 256) : crc8_upd_body r w < 256 := by
  rw [crc8_upd_body_eq_spec r w hn]
  exact spec_bit_step_lt _ _ _ hp hw

theorem iterate_lt (f : Nat → Nat) (hf : ∀ w, w < 256 → f w < 256) (n w : Nat)
    (hw : w < 256) : f^[n] w < 256 := by
  induction n generalizing w with
  | zero => exact hw
  | succ n ih =>
    rw [Function.iterate_succ_apply]
    exact ih _ (hf w hw)

theorem iterate_ker (f : Nat → Nat) (hf : ∀ w, w < 256 → f w < 256)
    (hk : ∀ w, w < 256 → f w = 0 → w = 0) (n w : Nat) (hw : w < 256)
    (h : f^[n] w = 0) : w = 0 := by
  induction n generalizing w with
  | zero => exact h
  | succ n ih =>
    rw [Function.iterate_succ_apply] at h
    exact hk w hw (ih _ (hf w hw) h)

/-- Eight passes of the loop body are injective on bytes when the bit shifted
out always reaches the register through the polynomial. -/
theorem crc8_upd_iterate_inj (r : crc8_t) (hp : r.poly < 256)
    (hm : (r.refio = 0x80 ∧ r.poly.testBit 0 = true) ∨
      (r.refio = 0x01 ∧ r.poly.testBit 7 = true))
    (w1 w2 : Nat) (h1 : w1 < 256) (h2 : w2 < 256)
    (h : (crc8_upd_body r)^[8] w1 = (crc8_upd_body r)^[8] w2) : w1 = w2 := by
  have hn : r.refio = 0x80 ∨ r.refio = 0x01 := hm.imp (fun h => h.1) (fun h => h.1)
  have hx : w1 ^^^ w2 < 256 := by
    have e : (256 : Nat) = 2 ^ 8 := by norm_num
    rw [e] at h1 h2 ⊢
    exact Nat.xor_lt_two_pow h1 h2
  have hz : (crc8_upd_body r)^[8] (w1 ^^^ w2) = 0 := by
    rw [iterate_xor _ (crc8_upd_body_xor r hn), h, Nat.xor_self]
  have hk : ∀ w, w < 256 → crc8_upd_body r w = 0 → w = 0 := by
    intro w hw h0
    rw [crc8_upd_body_eq_spec r w hn] at h0
    exact spec_bit_step_ker _ _ _ hp hw hm h0
  exact Nat.xor_eq_zero.mp (iterate_ker _ (crc8_upd_body_lt r hn hp) hk 8 _ hx hz)

theorem crc8_upd_snd_with_crc (r : crc8_t) (c b : Nat) :
    (crc8_upd { r with crc := c } b).2 = (crc8_upd_body r)^[8] (c ^^^ b) := by
  have h := crc8_upd_with_crc r c b
  rw [crc8_upd_fst] at h
  exact congrArg crc8_t.crc h

theorem xor_lt_256 (a b : Nat) (ha : a < 256) (hb : b < 256) : a ^^^ b < 256 := by
  have e : (256 : Nat) = 2 ^ 8 := by norm_num
  rw [e] at ha hb ⊢
  exact Nat.xor_lt_two_pow ha hb

theorem crc8_reg_with_crc_lt (r : crc8_t) (hn : r.refio = 0x80 ∨ r.refio = 0x01)
    (hp : r.poly < 256) (S : List Nat) : ∀ c : Nat, c < 256 → (∀ a ∈ S, a < 256) →
    crc8_reg { r with crc := c } S < 256 := by
  induction S with
  | nil => intro c hc _; exact hc
  | cons b S ih =>
    intro c hc hS
    simp only [crc8_reg, crc8] at ih ⊢
    rw [crc8_loop_cons_with_crc]
    exact ih _ (iterate_lt _ (crc8_upd_body_lt r hn hp) 8 _
      (xor_lt_256 _ _ hc (hS b (List.mem_cons_self b S))))
      (fun a ha => hS a (List.mem_cons_of_mem b ha))

theorem crc8_reg_with_crc_inj (r : crc8_t) (hp : r.poly < 256)
    (hm : (r.refio = 0x80 ∧ r.poly.testBit 0 = true) ∨
      (r.refio = 0x01 ∧ r.poly.testBit 7 = true))
    (S : List Nat) : ∀ c1 c2 : Nat, c1 < 256 → c2 < 256 → (∀ a ∈ S, a < 256) → c1 ≠ c2 →
    crc8_reg { r with crc := c1 } S ≠ crc8_reg { r with crc := c2 } S := by
  have hn : r.refio = 0x80 ∨ r.refio = 0x01 := hm.imp (fun h => h.1) (fun h => h.1)
  induction S with
  | nil => intro c1 c2 _ _ _ hne; exact hne
  | cons b S ih =>
    intro c1 c2 h1 h2 hS hne
    have hb : b < 256 := hS b (List.mem_cons_self b S)
    simp only [crc8_reg, crc8] at ih ⊢
    rw [crc8_loop_cons_with_crc, crc8_loop_cons_with_crc]
    apply ih _ _ (iterate_lt _ (crc8_upd_body_lt r hn hp) 8 _ (xor_lt_256 _ _ h1 hb))
      (iterate_lt _ (crc8_upd_body_lt r hn hp) 8 _ (xor_lt_256 _ _ h2 hb))
      (fun a ha => hS a (List.mem_cons_of_mem b ha))
    intro h
    have h3 := crc8_upd_iterate_inj r hp hm _ _ (xor_lt_256 _ _ h1 hb) (xor_lt_256 _ _ h2 hb) h
    exact hne (Nat.xor_left_inj.mp h3)

theorem crc8_reg_append (r : crc8_t) (A B : List Nat) :
    crc8_reg r (A ++ B) = crc8_reg { r with crc := crc8_reg r A } B := by
  simp only [crc8_reg, crc8]
  rw [crc8_loop_append, crc8_loop_frame r A]

theorem checksum_eq_reg_xor (r : crc8_t) (S : List Nat) :
    checksum r S = crc8_reg r S ^^^ r.xor := by
  simp only [checksum, crc8_reg, crc8, crc8_fin, crc8_loop_xor]

/-- Two sequences of equal length that differ at position `i` and nowhere
else share the prefix before `i` and the suffix after it. -/
theorem differ_one_decompose (S1 S2 : List Nat) (i : Nat) (hlen : S1.length = S2.length)
    (hi : S1[i]? ≠ S2[i]?) (hj : ∀ j : Nat, j ≠ i → S1[j]? = S2[j]?) :
    ∃ (A B : List Nat) (x y : Nat), S1 = A ++ x :: B ∧ S2 = A ++ y :: B ∧ x ≠ y := by
  have h1 : i < S1.length := by
    by_contra h
    have e1 : S1[i]? = none := List.getElem?_eq_none (by omega)
    have e2 : S2[i]? = none := List.getElem?_eq_none (by omega)
    exact hi (e1.trans e2.symm)
  have h2 : i < S2.length := hlen ▸ h1
  refine ⟨S1.take i, S1.drop (i + 1), S1[i], S2[i], ?_, ?_, ?_⟩
  · rw [← List.drop_eq_getElem_cons h1, List.take_append_drop]
  · have ht : S1.take i = S2.take i := by
      apply List.ext_getElem?
      intro n
      by_cases hn : n < i
      · rw [List.getElem?_take_of_lt hn, List.getElem?_take_of_lt hn]
        exact hj n (by omega)
      · rw [List.getElem?_eq_none (by simp; omega), List.getElem?_eq_none (by simp; omega)]
    have hd : S1.drop (i + 1) = S2.drop (i + 1) := by
      apply List.ext_getElem?
      intro n
      rw [List.getElem?_drop, List.getElem?_drop]
      exact hj _ (by omega)
    rw [ht, hd, ← List.drop_eq_getElem_cons h2, List.take_append_drop]
  · intro h
    apply hi
    rw [List.getElem?_eq_getElem h1, List.getElem?_eq_getElem h2, h]

/-- C20: when `refio = 0x80` and bit 0 of `poly` is set, or `refio = 0x01` and
bit 7 of `poly` is set (which holds for all 20 predefined recipes),
`crc8_upd` with a fixed byte is a bijection on the 256 `crc` values, and two
byte sequences of equal length that differ in exactly one position (they
differ at an index `i` and agree at every other index; equivalently they are
`A ++ x :: B` and `A ++ y :: B` with `x ≠ y`) get different checksums, after
`crc8` and also after `crc8_fin`, when started from identical recipes. -/
theorem single_byte_error_detected (r : crc8_t) (hr : r.inRange)
    (hm : (r.refio = 0x80 ∧ r.poly.testBit 0 = true) ∨
      (r.refio = 0x01 ∧ r.poly.testBit 7 = true)) :
    (∀ r0 ∈ algos, r0.inRange ∧
      ((r0.refio = 0x80 ∧ r0.poly.testBit 0 = true) ∨
        (r0.refio = 0x01 ∧ r0.poly.testBit 7 = true))) ∧
    (∀ b : Nat, b < 256 →
      (∀ c : Nat, c < 256 → (crc8_upd { r with crc := c } b).2 < 256) ∧
      (∀ c1 c2 : Nat, c1 < 256 → c2 < 256 →
        (crc8_upd { r with crc := c1 } b).2 = (crc8_upd { r with crc := c2 } b).2 →
        c1 = c2) ∧
      (∀ y : Nat, y < 256 → ∃ c : Nat, c < 256 ∧ (crc8_upd { r with crc := c } b).2 = y)) ∧
    (∀ (A B : List Nat) (x y : Nat), (∀ a ∈ A, a < 256) → (∀ a ∈ B, a < 256) →
      x < 256 → y < 256 → x ≠ y →
      (crc8 r (A ++ x :: B)).2 ≠ (crc8 r (A ++ y :: B)).2 ∧
      checksum r (A ++ x :: B) ≠ checksum r (A ++ y :: B)) ∧
    (∀ (S1 S2 : List Nat) (i : Nat), (∀ a ∈ S1, a < 256) → (∀ a ∈ S2, a < 256) →
      S1.length = S2.length → S1[i]? ≠ S2[i]? → (∀ j : Nat, j ≠ i → S1[j]? = S2[j]?) →
      (crc8 r S1).2 ≠ (crc8 r S2).2 ∧ checksum r S1 ≠ checksum r S2) := by
  obtain ⟨hc, hp, -, -⟩ := hr
  have hn : r.refio = 0x80 ∨ r.refio = 0x01 := hm.imp (fun h => h.1) (fun h => h.1)
  have hlt : ∀ b : Nat, b < 256 → ∀ c : Nat, c < 256 →
      (crc8_upd { r with crc := c } b).2 < 256 := by
    intro b hb c hc'
    rw [crc8_upd_snd_with_crc]
    exact iterate_lt _ (crc8_upd_body_lt r hn hp) 8 _ (xor_lt_256 _ _ hc' hb)
  have hinj : ∀ b : Nat, b < 256 → ∀ c1 c2 : Nat, c1 < 256 → c2 < 256 →
      (crc8_upd { r with crc := c1 } b).2 = (crc8_upd { r with crc := c2 } b).2 →
      c1 = c2 := by
    intro b hb c1 c2 h1 h2 h
    rw [crc8_upd_snd_with_crc, crc8_upd_snd_with_crc] at h
    exact Nat.xor_left_inj.mp
      (crc8_upd_iterate_inj r hp hm _ _ (xor_lt_256 _ _ h1 hb) (xor_lt_256 _ _ h2 hb) h)
  have hdec : ∀ (A B : List Nat) (x y : Nat), (∀ a ∈ A, a < 256) → (∀ a ∈ B, a < 256) →
      x < 256 → y < 256 → x ≠ y →
      (crc8 r (A ++ x :: B)).2 ≠ (crc8 r (A ++ y :: B)).2 ∧
      checksum r (A ++ x :: B) ≠ checksum r (A ++ y :: B) := by
    intro A B x y hA hB hx hy hxy
    have hreg : crc8_reg r (A ++ x :: B) ≠ crc8_reg r (A ++ y :: B) := by
      have hcA : crc8_reg r A < 256 := crc8_reg_with_crc_lt r hn hp A r.crc hc hA
      rw [crc8_reg_append r A (x :: B), crc8_reg_append r A (y :: B)]
      simp only [crc8_reg, crc8]
      rw [crc8_loop_cons_with_crc, crc8_loop_cons_with_crc]
      apply crc8_reg_with_crc_inj r hp hm B _ _
        (iterate_lt _ (crc8_upd_body_lt r hn hp) 8 _ (xor_lt_256 _ _ hcA hx))
        (iterate_lt _ (crc8_upd_body_lt r hn hp) 8 _ (xor_lt_256 _ _ hcA hy)) hB
      intro h
      have h3 := crc8_upd_iterate_inj r hp hm _ _ (xor_lt_256 _ _ hcA hx)
        (xor_lt_256 _ _ hcA hy) h
      exact hxy (Nat.xor_right_inj.mp h3)
    refine ⟨hreg, ?_⟩
    rw [checksum_eq_reg_xor, checksum_eq_reg_xor]
    intro h
    exact hreg (Nat.xor_left_inj.mp h)
  refine ⟨by decide, ?_, hdec, ?_⟩
  · intro b hb
    refine ⟨hlt b hb, hinj b hb, ?_⟩
    intro y hy
    have hs := Finset.surj_on_of_inj_on_of_card_le
      (s := Finset.range 256) (t := Finset.range 256)
      (fun c _ => (crc8_upd { r with crc := c } b).2)
      (fun c hc' => Finset.mem_range.mpr (hlt b hb c (Finset.mem_range.mp hc')))
      (fun c1 c2 h1 h2 h => hinj b hb c1 c2 (Finset.mem_range.mp h1) (Finset.mem_range.mp h2) h)
      (le_refl _) y (Finset.mem_range.mpr hy)
    obtain ⟨c, hc', hy'⟩ := hs
    exact ⟨c, Finset.mem_range.mp hc', hy'.symm⟩
  · intro S1 S2 i hS1 hS2 hlen hi hj
    obtain ⟨A, B, x, y, e1, e2, hxy⟩ := differ_one_decompose S1 S2 i hlen hi hj
    subst e1
    subst e2
    exact hdec A B x y (fun a ha => hS1 a (List.mem_append_left _ ha))
      (fun a ha => hS1 a (List.mem_append_right _ (List.mem_cons_of_mem x ha)))
      (hS1 x (List.mem_append_right _ (List.mem_cons_self x B)))
      (hS2 y (List.mem_append_right _ (List.mem_cons_self y B))) hxy

/-- Witness for C20: CRC-8/SMBUS on "1234" and "1334", which differ in the
second byte only. -/
theorem single_byte_error_detected_witness :
    CRC8_SMBUS.inRange ∧
    checksum CRC8_SMBUS ([0x31] ++ 0x32 :: [0x33, 0x34]) ≠
      checksum CRC8_SMBUS ([0x31] ++ 0x33 :: [0x33, 0x34]) :=
  ⟨by decide,
   ((single_byte_error_detected CRC8_SMBUS (by decide) (Or.inl (by decide))).2.2.1
      [0x31] [0x33, 0x34] 0x32 0x33 (by decide) (by decide) (by decide) (by decide)
      (by decide)).2⟩

/-! ## Reflected mode is the bit-mirror of the MSB-first algorithm -/

theorem rev8_zero : rev8 0 = 0 := by decide

theorem rev8_xor (a b : Nat) : rev8 (a ^^^ b) = rev8 a ^^^ rev8 b := by
  apply Nat.eq_of_testBit_eq
  intro i
  by_cases hi : i < 8
  · rw [Nat.testBit_xor, rev8_testBit _ i hi, rev8_testBit _ i hi, rev8_testBit _ i hi,
      Nat.testBit_xor]
  · rw [testBit_of_lt_256 _ i (rev8_lt _) (by omega),
      testBit_of_lt_256 _ i (xor_lt_256 _ _ (rev8_lt a) (rev8_lt b)) (by omega)]

theorem rev8_shiftRight_one : ∀ w : Nat, w < 256 → rev8 (w >>> 1) = (rev8 w <<< 1) % 256 := by
  decide

theorem rev8_testBit_7 (w : Nat) : (rev8 w).testBit 7 = w.testBit 0 :=
  rev8_testBit w 7 (by norm_num)

theorem spec_bit_step_mirror (P w : Nat) (hP : P < 256) (hw : w < 256) :
    rev8 (spec_bit_step 0x01 (rev8 P) w) = spec_bit_step 0x80 P (rev8 w) := by
  unfold spec_bit_step
  rw [if_neg (by norm_num), if_pos rfl, if_pos rfl, rev8_xor, rev8_shiftRight_one w hw,
    rev8_testBit_7]
  cases w.testBit 0
  · simp [rev8_zero]
  · simp [rev8_rev8 P hP]

theorem crc8_upd_body_mirror (rR rN : crc8_t) (hR : rR.refio = 0x01) (hN : rN.refio = 0x80)
    (hp : rN.poly < 256) (hpoly : rR.poly = rev8 rN.poly) (w : Nat) (hw : w < 256) :
    rev8 (crc8_upd_body rR w) = crc8_upd_body rN (rev8 w) := by
  rw [crc8_upd_body_eq_spec rR w (Or.inr hR), crc8_upd_body_eq_spec rN _ (Or.inl hN),
    hR, hN, hpoly]
  exact spec_bit_step_mirror _ _ hp hw

theorem crc8_upd_iterate_mirror (rR rN : crc8_t) (hR : rR.refio = 0x01)
    (hN : rN.refio = 0x80) (hp : rN.poly < 256) (hpoly : rR.poly = rev8 rN.poly)
    (n w : Nat) (hw : w < 256) :
    rev8 ((crc8_upd_body rR)^[n] w) = (crc8_upd_body rN)^[n] (rev8 w) := by
  have hpR : rR.poly < 256 := by
    rw [hpoly]
    exact rev8_lt _
  induction n generalizing w with
  | zero => rfl
  | succ n ih =>
    rw [Function.iterate_succ_apply, Function.iterate_succ_apply,
      ih _ (crc8_upd_body_lt rR (Or.inr hR) hpR w hw),
      crc8_upd_body_mirror rR rN hR hN hp hpoly w hw]

theorem crc8_reg_mirror (rR rN : crc8_t) (hR : rR.refio = 0x01) (hN : rN.refio = 0x80)
    (hp : rN.poly < 256) (hpoly : rR.poly = rev8 rN.poly) (S : List Nat) :
    ∀ c : Nat, c < 256 → (∀ a ∈ S, a < 256) →
    crc8_reg { rR with crc := c } S =
      rev8 (crc8_reg { rN with crc := rev8 c } (S.map rev8)) := by
  have hpR : rR.poly < 256 := by
    rw [hpoly]
    exact rev8_lt _
  induction S with
  | nil =>
    intro c hc _
    exact (rev8_rev8 c hc).symm
  | cons b S ih =>
    intro c hc hS
    have hb : b < 256 := hS b (List.mem_cons_self b S)
    have hw : c ^^^ b < 256 := xor_lt_256 _ _ hc hb
    simp only [crc8_reg, crc8, List.map_cons] at ih ⊢
    rw [crc8_loop_cons_with_crc, crc8_loop_cons_with_crc, ← rev8_xor,
      ← crc8_upd_iterate_mirror rR rN hR hN hp hpoly 8 _ hw]
    exact ih _ (iterate_lt _ (crc8_upd_body_lt rR (Or.inr hR) hpR) 8 _ hw)
      (fun a ha => hS a (List.mem_cons_of_mem b ha))

/-- C16: for every standard-form polynomial `P`, initial value `c` and byte
sequence `S` (all bytes), the `crc` register after `crc8` over `S` on the
recipe obtained by `crc8_init` from `{c, P, 0x01}` equals `rev8` of the `crc`
register after `crc8` on the non-reflected recipe `{rev8 c, P, 0x80}` over
`S` with every byte replaced by its `rev8`. -/
theorem reflected_is_mirror (P c xR xN : Nat) (S : List Nat) (hP : P < 256) (hc : c < 256)
    (hS : ∀ a ∈ S, a < 256) :
    crc8_reg (crc8_init ⟨c, P, 0x01, xR⟩) S =
      rev8 (crc8_reg ⟨rev8 c, P, 0x80, xN⟩ (S.map rev8)) := by
  have h1 : (⟨c, P, 0x01, xR⟩ : crc8_t).refio &&& 0x01 ≠ 0 := by
    show (0x01 : Nat) &&& 0x01 ≠ 0
    decide
  have e : crc8_init ⟨c, P, 0x01, xR⟩ = ⟨c, rev8 P, 0x01, xR⟩ := by
    rw [crc8_init_of_reflect _ h1, crc8_init_loop_eq_rev8]
  rw [e]
  exact crc8_reg_mirror ⟨c, rev8 P, 0x01, xR⟩ ⟨rev8 c, P, 0x80, xN⟩ rfl rfl hP rfl S c hc hS

/-- Witness for C16: polynomial `0x31`, initial value `0xff`, bytes "12". -/
theorem reflected_is_mirror_witness :
    crc8_reg (crc8_init ⟨0xff, 0x31, 0x01, 0x00⟩) [0x31, 0x32] =
      rev8 (crc8_reg ⟨rev8 0xff, 0x31, 0x80, 0x00⟩ ([0x31, 0x32].map rev8)) :=
  reflected_is_mirror 0x31 0xff 0x00 0x00 [0x31, 0x32] (by decide) (by decide) (by decide)

/-! ## Polynomial arithmetic over GF(2) -/

theorem shiftLeft_xor (a b s : Nat) : (a ^^^ b) <<< s = (a <<< s) ^^^ (b <<< s) := by
  apply Nat.eq_of_testBit_eq
  intro i
  simp only [Nat.testBit_xor, Nat.testBit_shiftLeft]
  cases decide (i ≥ s) <;> simp

theorem gf2_mul_upto_stable (q g k : Nat) (hq : q < 2 ^ k) (d : Nat) :
    gf2_mul_upto q g (k + d) = gf2_mul_upto q g k := by
  induction d with
  | zero => rfl
  | succ d ih =>
    have hb : q.testBit (k + d) = false :=
      Nat.testBit_eq_false_of_lt (lt_of_lt_of_le hq (Nat.pow_le_pow_right (by norm_num)
        (Nat.le_add_right k d)))
    rw [← Nat.add_assoc, gf2_mul_upto, ih, hb]
    simp

theorem gf2_mul_eq_upto (q g k : Nat) (hq : q < 2 ^ k) :
    gf2_mul q g = gf2_mul_upto q g k := by
  have hs : q.size ≤ k := Nat.size_le.mpr hq
  obtain ⟨d, rfl⟩ := Nat.exists_eq_add_of_le hs
  rw [gf2_mul_upto_stable q g q.size (Nat.lt_size_self q) d]
  rfl

theorem gf2_mul_upto_xor (q q' g k : Nat) :
    gf2_mul_upto (q ^^^ q') g k = gf2_mul_upto q g k ^^^ gf2_mul_upto q' g k := by
  induction k with
  | zero => simp [gf2_mul_upto]
  | succ k ih =>
    simp only [gf2_mul_upto, ih, Nat.testBit_xor]
    rw [ite_xor_poly]
    ac_rfl

theorem gf2_mul_xor (q q' g : Nat) :
    gf2_mul (q ^^^ q') g = gf2_mul q g ^^^ gf2_mul q' g := by
  have h1 : q < 2 ^ (q.size + q'.size) :=
    lt_of_lt_of_le (Nat.lt_size_self q) (Nat.pow_le_pow_right (by norm_num) (by omega))
  have h2 : q' < 2 ^ (q.size + q'.size) :=
    lt_of_lt_of_le (Nat.lt_size_self q') (Nat.pow_le_pow_right (by norm_num) (by omega))
  rw [gf2_mul_eq_upto _ g _ (Nat.xor_lt_two_pow h1 h2), gf2_mul_eq_upto q g _ h1,
    gf2_mul_eq_upto q' g _ h2, gf2_mul_upto_xor]

theorem gf2_mul_upto_shift_low (q g s j : Nat) (hj : j ≤ s) :
    gf2_mul_upto (q <<< s) g j = 0 := by
  induction j with
  | zero => rfl
  | succ j ih =>
    have hb : (q <<< s).testBit j = false := by
      rw [Nat.testBit_shiftLeft]
      simp
      omega
    rw [gf2_mul_upto, ih (by omega), hb]
    simp

theorem gf2_mul_upto_shift (q g s k : Nat) :
    gf2_mul_upto (q <<< s) g (k + s) = (gf2_mul_upto q g k) <<< s := by
  induction k with
  | zero =>
    rw [Nat.zero_add, gf2_mul_upto_shift_low q g s s (le_refl s)]
    simp [gf2_mul_upto]
  | succ k ih =>
    have e : k + 1 + s = (k + s) + 1 := by omega
    have hb : (q <<< s).testBit (k + s) = q.testBit k := by
      rw [Nat.testBit_shiftLeft]
      simp
    rw [e, gf2_mul_upto, ih, hb, gf2_mul_upto, shiftLeft_xor]
    cases q.testBit k
    · simp
    · simp [Nat.shiftLeft_add]

theorem gf2_mul_shift (q g s : Nat) : gf2_mul (q <<< s) g = (gf2_mul q g) <<< s := by
  have h1 : q <<< s < 2 ^ (q.size + s) := Nat.shiftLeft_lt (Nat.lt_size_self q)
  rw [gf2_mul_eq_upto _ g _ h1, gf2_mul_upto_shift]
  rfl

theorem gf2_mul_zero_left (g : Nat) : gf2_mul 0 g = 0 := by
  rw [gf2_mul_eq_upto 0 g 0 (by norm_num)]
  rfl

theorem gf2_mul_one_left (g : Nat) : gf2_mul 1 g = g := by
  rw [gf2_mul_eq_upto 1 g 1 (by norm_num)]
  simp [gf2_mul_upto]

/-! ## The non-reflected engine as division by `x^8 + P` -/

theorem shl_one_high : ∀ w : Nat, w < 256 → w.testBit 7 = true →
    w <<< 1 = 0x100 ^^^ ((w <<< 1) % 256) := by
  decide

theorem shl_one_low : ∀ w : Nat, w < 256 → w.testBit 7 = false →
    w <<< 1 = (w <<< 1) % 256 := by
  decide

/-- One pass of the MSB-first loop: `w * x = t * G + step w`, with `t` the
bit shifted out. -/
theorem spec_bit_step_division (P w : Nat) (hw : w < 256) :
    w <<< 1 = gf2_mul (if w.testBit 7 = true then 1 else 0) (0x100 ^^^ P) ^^^
      spec_bit_step 0x80 P w := by
  unfold spec_bit_step
  rw [if_pos rfl]
  by_cases h7 : w.testBit 7 = true
  · have h := shl_one_high w hw h7
    rw [if_pos h7, if_pos h7, gf2_mul_one_left]
    have e : (0x100 ^^^ P) ^^^ (((w <<< 1) % 256) ^^^ P) =
        (0x100 ^^^ ((w <<< 1) % 256)) ^^^ (P ^^^ P) := by ac_rfl
    rw [e, Nat.xor_self, Nat.xor_zero]
    exact h
  · have h7f : w.testBit 7 = false := by simpa using h7
    have h := shl_one_low w hw h7f
    rw [if_neg h7, if_neg h7, gf2_mul_zero_left, Nat.zero_xor, Nat.xor_zero]
    exact h

theorem spec_bit_step_iterate_division (P : Nat) (hP : P < 256) (n : Nat) :
    ∀ w : Nat, w < 256 →
    ∃ q : Nat, w <<< n = gf2_mul q (0x100 ^^^ P) ^^^ (spec_bit_step 0x80 P)^[n] w := by
  induction n with
  | zero =>
    intro w _
    exact ⟨0, by simp [gf2_mul_zero_left]⟩
  | succ n ih =>
    intro w hw
    obtain ⟨q, hq⟩ := ih (spec_bit_step 0x80 P w) (spec_bit_step_lt _ _ _ hP hw)
    refine ⟨((if w.testBit 7 = true then 1 else 0) <<< n) ^^^ q, ?_⟩
    have e : w <<< (n + 1) = (w <<< 1) <<< n := by
      rw [Nat.add_comm, Nat.shiftLeft_add]
    rw [Function.iterate_succ_apply, e, spec_bit_step_division P w hw, shiftLeft_xor, hq,
      gf2_mul_xor, gf2_mul_shift]
    ac_rfl

theorem crc8_upd_iterate_division (r : crc8_t) (hr : r.refio = 0x80) (hp : r.poly < 256)
    (w : Nat) (hw : w < 256) :
    ∃ q : Nat, w <<< 8 = gf2_mul q (0x100 ^^^ r.poly) ^^^ (crc8_upd_body r)^[8] w := by
  have hf : crc8_upd_body r = spec_bit_step 0x80 r.poly := by
    funext c
    rw [crc8_upd_body_eq_spec r c (Or.inl hr), hr]
  rw [hf]
  exact spec_bit_step_iterate_division r.poly hp 8 w hw

theorem msg_poly_snoc (S : List Nat) (b : Nat) :
    msg_poly (S ++ [b]) = (msg_poly S <<< 8) ^^^ b := by
  simp [msg_poly, List.foldl_append]

theorem crc8_reg_snoc (r : crc8_t) (S : List Nat) (b : Nat) :
    crc8_reg r (S ++ [b]) = (crc8_upd_body r)^[8] (crc8_reg r S ^^^ b) := by
  rw [crc8_reg_append]
  simp only [crc8_reg, crc8]
  rw [crc8_loop_cons_with_crc]
  rfl

theorem crc8_reg_lt (r : crc8_t) (hn : r.refio = 0x80 ∨ r.refio = 0x01)
    (hp : r.poly < 256) (hc : r.crc < 256) (S : List Nat) (hS : ∀ a ∈ S, a < 256) :
    crc8_reg r S < 256 :=
  crc8_reg_with_crc_lt r hn hp S r.crc hc hS

/-- Existence of the quotient: the register after `crc8` over `S` differs from
`c(x) * x^(8n) + M(x) * x^8` by a multiple of `G`. -/
theorem crc8_reg_division (r : crc8_t) (hr : r.refio = 0x80) (hp : r.poly < 256)
    (hc : r.crc < 256) (S : List Nat) (hS : ∀ a ∈ S, a < 256) :
    ∃ q : Nat, (r.crc <<< (8 * S.length)) ^^^ (msg_poly S <<< 8) =
      gf2_mul q (0x100 ^^^ r.poly) ^^^ crc8_reg r S := by
  induction S using List.reverseRecOn with
  | nil =>
    exact ⟨0, by simp [gf2_mul_zero_left, msg_poly, crc8_reg, crc8, crc8_loop]⟩
  | append_singleton S b ih =>
    have hS' : ∀ a ∈ S, a < 256 := fun a ha => hS a (List.mem_append_left _ ha)
    have hb : b < 256 := hS b (List.mem_append_right _ (List.mem_singleton_self b))
    obtain ⟨q, hq⟩ := ih hS'
    have hreg := crc8_reg_lt r (Or.inl hr) hp hc S hS'
    obtain ⟨q2, hq2⟩ := crc8_upd_iterate_division r hr hp (crc8_reg r S ^^^ b)
      (xor_lt_256 _ _ hreg hb)
    refine ⟨(q <<< 8) ^^^ q2, ?_⟩
    have e1 : 8 * (S ++ [b]).length = 8 * S.length + 8 := by simp; omega
    have e2 : (r.crc <<< (8 * S.length + 8)) ^^^ (((msg_poly S <<< 8) ^^^ b) <<< 8) =
        (((r.crc <<< (8 * S.length)) ^^^ (msg_poly S <<< 8)) <<< 8) ^^^ (b <<< 8) := by
      rw [shiftLeft_xor, shiftLeft_xor, Nat.shiftLeft_add]
      ac_rfl
    rw [e1, msg_poly_snoc, e2, hq, crc8_reg_snoc, gf2_mul_xor, gf2_mul_shift, Nat.xor_assoc,
      ← hq2, shiftLeft_xor, shiftLeft_xor]
    ac_rfl

/-! ## Uniqueness of the remainder and long division -/

theorem gf2_mul_upto_lt (q g dg k : Nat) (hg : g < 2 ^ (dg + 1)) :
    gf2_mul_upto q g k < 2 ^ (k + dg) := by
  induction k with
  | zero =>
    rw [gf2_mul_upto]
    exact Nat.two_pow_pos _
  | succ k ih =>
    have h1 : gf2_mul_upto q g k < 2 ^ (k + 1 + dg) :=
      lt_of_lt_of_le ih (Nat.pow_le_pow_right (by norm_num) (by omega))
    have h2 : g <<< k < 2 ^ (k + 1 + dg) := by
      have := Nat.shiftLeft_lt (m := k) hg
      have e : dg + 1 + k = k + 1 + dg := by omega
      rwa [e] at this
    rw [gf2_mul_upto]
    split
    · exact Nat.xor_lt_two_pow h1 h2
    · exact Nat.xor_lt_two_pow h1 (Nat.two_pow_pos _)

/-- A nonzero multiple of a polynomial of degree `dg` has degree at least
`dg`. -/
theorem gf2_mul_ge (q g dg : Nat) (hq : q ≠ 0) (hg : g < 2 ^ (dg + 1))
    (hd : g.testBit dg = true) : 2 ^ dg ≤ gf2_mul q g := by
  obtain ⟨i, hi, hhigh⟩ := Nat.exists_most_significant_bit hq
  have hlt : q < 2 ^ (i + 1) := Nat.lt_pow_two_of_testBit q (fun j hj => hhigh j (by omega))
  have hb : (gf2_mul q g).testBit (i + dg) = true := by
    rw [gf2_mul_eq_upto q g (i + 1) hlt, gf2_mul_upto, if_pos hi, Nat.testBit_xor,
      Nat.testBit_eq_false_of_lt (gf2_mul_upto_lt q g dg i hg), Nat.testBit_shiftLeft]
    simp [hd]
  exact le_trans (Nat.pow_le_pow_right (by norm_num) (by omega)) (Nat.testBit_implies_ge hb)

theorem gf2_remainder_unique (g dg q q' u u' : Nat) (hg : g < 2 ^ (dg + 1))
    (hd : g.testBit dg = true) (hu : u < 2 ^ dg) (hu' : u' < 2 ^ dg)
    (h : gf2_mul q g ^^^ u = gf2_mul q' g ^^^ u') : u = u' := by
  have h1 : gf2_mul (q ^^^ q') g = u ^^^ u' := by
    rw [gf2_mul_xor]
    apply Nat.eq_of_testBit_eq
    intro i
    have := congrArg (fun z => Nat.testBit z i) h
    simp only [Nat.testBit_xor] at this ⊢
    revert this
    cases (gf2_mul q g).testBit i <;> cases (gf2_mul q' g).testBit i <;>
      cases u.testBit i <;> cases u'.testBit i <;> simp
  have h2 : q ^^^ q' = 0 := by
    by_contra hne
    have := gf2_mul_ge (q ^^^ q') g dg hne hg hd
    rw [h1] at this
    exact absurd (Nat.xor_lt_two_pow hu hu') (not_lt.mpr this)
  rw [h2, gf2_mul_zero_left] at h1
  exact Nat.xor_eq_zero.mp h1.symm

/-- Long division leaves a polynomial of degree below `dg` that differs from
the dividend by a multiple of `g`. -/
theorem gf2_rem_loop_spec (g dg : Nat) (hg : g < 2 ^ (dg + 1)) (hd : g.testBit dg = true)
    (k : Nat) : ∀ a : Nat, a < 2 ^ (k + dg) →
    gf2_rem_loop g dg k a < 2 ^ dg ∧ ∃ q : Nat, a = gf2_mul q g ^^^ gf2_rem_loop g dg k a := by
  induction k with
  | zero =>
    intro a ha
    rw [Nat.zero_add] at ha
    exact ⟨ha, 0, by simp [gf2_rem_loop, gf2_mul_zero_left]⟩
  | succ k ih =>
    intro a ha
    by_cases hb : a.testBit (k + dg) = true
    · have hlt : a ^^^ (g <<< k) < 2 ^ (k + dg) := by
        apply Nat.lt_pow_two_of_testBit
        intro i hi
        rw [Nat.testBit_xor, Nat.testBit_shiftLeft]
        rcases Nat.eq_or_lt_of_le hi with heq | hgt
        · rw [← heq, hb]
          simp [hd]
        · have ha' : a.testBit i = false :=
            Nat.testBit_eq_false_of_lt (lt_of_lt_of_le ha
              (Nat.pow_le_pow_right (by norm_num) (by omega)))
          have hg' : g.testBit (i - k) = false :=
            Nat.testBit_eq_false_of_lt (lt_of_lt_of_le hg
              (Nat.pow_le_pow_right (by norm_num) (by omega)))
          simp [ha', hg']
      obtain ⟨h1, q, hq⟩ := ih _ hlt
      rw [gf2_rem_loop, if_pos hb]
      refine ⟨h1, q ^^^ (1 <<< k), ?_⟩
      rw [gf2_mul_xor, gf2_mul_shift, gf2_mul_one_left]
      calc a = (a ^^^ (g <<< k)) ^^^ (g <<< k) := (Nat.xor_cancel_right _ _).symm
        _ = (gf2_mul q g ^^^ gf2_rem_loop g dg k (a ^^^ (g <<< k))) ^^^ (g <<< k) :=
          congrArg (fun z => z ^^^ (g <<< k)) hq
        _ = (gf2_mul q g ^^^ (g <<< k)) ^^^ gf2_rem_loop g dg k (a ^^^ (g <<< k)) := by
          ac_rfl
    · have hbf : a.testBit (k + dg) = false := by simpa using hb
      have hlt : a < 2 ^ (k + dg) := by
        apply Nat.lt_pow_two_of_testBit
        intro i hi
        rcases Nat.eq_or_lt_of_le hi with heq | hgt
        · rw [← heq, hbf]
        · exact Nat.testBit_eq_false_of_lt (lt_of_lt_of_le ha
            (Nat.pow_le_pow_right (by norm_num) (by omega)))
      rw [gf2_rem_loop, if_neg hb]
      exact ih a hlt

theorem generator_lt (P : Nat) (hP : P < 256) : 0x100 ^^^ P < 2 ^ (8 + 1) := by
  have h1 : (0x100 : Nat) < 2 ^ (8 + 1) := by norm_num
  have h2 : P < 2 ^ (8 + 1) := lt_trans hP (by norm_num)
  exact Nat.xor_lt_two_pow h1 h2

theorem generator_testBit (P : Nat) (hP : P < 256) : (0x100 ^^^ P).testBit 8 = true := by
  rw [Nat.testBit_xor, testBit_of_lt_256 P 8 hP (le_refl 8)]
  decide

theorem msg_poly_lt (S : List Nat) (hS : ∀ a ∈ S, a < 256) :
    msg_poly S < 2 ^ (8 * S.length) := by
  induction S using List.reverseRecOn with
  | nil => simp [msg_poly]
  | append_singleton S b ih =>
    have hS' : ∀ a ∈ S, a < 256 := fun a ha => hS a (List.mem_append_left _ ha)
    have hb : b < 256 := hS b (List.mem_append_right _ (List.mem_singleton_self b))
    have e1 : 8 * (S ++ [b]).length = 8 * S.length + 8 := by simp; omega
    rw [msg_poly_snoc, e1]
    apply Nat.xor_lt_two_pow (Nat.shiftLeft_lt (ih hS'))
    exact lt_of_lt_of_le hb (by
      have e : (256 : Nat) = 2 ^ 8 := by norm_num
      rw [e]
      exact Nat.pow_le_pow_right (by norm_num) (by omega))

theorem dividend_lt (c : Nat) (hc : c < 256) (S : List Nat) (hS : ∀ a ∈ S, a < 256) :
    (c <<< (8 * S.length)) ^^^ (msg_poly S <<< 8) < 2 ^ (8 * S.length + 8) := by
  have e : (256 : Nat) = 2 ^ 8 := by norm_num
  rw [e] at hc
  have h1 := Nat.shiftLeft_lt (m := 8 * S.length) hc
  rw [Nat.add_comm] at h1
  exact Nat.xor_lt_two_pow h1 (Nat.shiftLeft_lt (msg_poly_lt S hS))

/-- C17: for a recipe with `refio = 0x80` (fields and data being bytes) the
`crc` register after `crc8` over a sequence `S` of `n` bytes is the remainder
of `c(x) * x^(8n) + M(x) * x^8` modulo `G(x) = x^8 + P(x)` over GF(2): it has
degree below 8, it differs from the dividend by a multiple of `G`, it is the
only such polynomial, and it is the value computed by long division. -/
theorem crc8_is_gf2_remainder (r : crc8_t) (S : List Nat) (hr : r.refio = 0x80)
    (hp : r.poly < 256) (hc : r.crc < 256) (hS : ∀ a ∈ S, a < 256) :
    crc8_reg r S < 2 ^ 8 ∧
    (∃ q : Nat, (r.crc <<< (8 * S.length)) ^^^ (msg_poly S <<< 8) =
      gf2_mul q (0x100 ^^^ r.poly) ^^^ crc8_reg r S) ∧
    (∀ q u : Nat, u < 2 ^ 8 →
      (r.crc <<< (8 * S.length)) ^^^ (msg_poly S <<< 8) =
        gf2_mul q (0x100 ^^^ r.poly) ^^^ u →
      u = crc8_reg r S) ∧
    crc8_reg r S = crc8_reference r.poly r.crc S := by
  have hlt : crc8_reg r S < 2 ^ 8 := crc8_reg_lt r (Or.inl hr) hp hc S hS
  have hex := crc8_reg_division r hr hp hc S hS
  have hg := generator_lt r.poly hp
  have hd := generator_testBit r.poly hp
  obtain ⟨q0, hq0⟩ := hex
  have huniq : ∀ q u : Nat, u < 2 ^ 8 →
      (r.crc <<< (8 * S.length)) ^^^ (msg_poly S <<< 8) =
        gf2_mul q (0x100 ^^^ r.poly) ^^^ u → u = crc8_reg r S := by
    intro q u hu h
    rw [hq0] at h
    exact (gf2_remainder_unique _ 8 q0 q _ u hg hd hlt hu h).symm
  refine ⟨hlt, ⟨q0, hq0⟩, huniq, ?_⟩
  obtain ⟨h1, q1, hq1⟩ := gf2_rem_loop_spec (0x100 ^^^ r.poly) 8 hg hd (8 * S.length) _
    (dividend_lt r.crc hc S hS)
  exact (huniq q1 _ h1 hq1).symm

/-- Witness for C17: CRC-8/CDMA2000 (initial value `0xff`, polynomial `0x9b`)
over the bytes "12". -/
theorem crc8_is_gf2_remainder_witness :
    crc8_reg CRC8_CDMA2000 [0x31, 0x32] =
      crc8_reference CRC8_CDMA2000.poly CRC8_CDMA2000.crc [0x31, 0x32] :=
  (crc8_is_gf2_remainder CRC8_CDMA2000 [0x31, 0x32] rfl (by decide) (by decide)
    (by decide)).2.2.2

end Crc8
